import Mathlib

/-!
Verification of the mining-accident RAG system.

Part 1 embeds the frontend chat page (`src/frontend/src/pages/chat.jsx`):
the `handleSendQuestion` and `handleBuildIndex` handlers are modelled as
pure functions from component state (plus the backend's response outcome)
to the next state and the request payload they send.

Parts 2-4 model the ingestion-and-retrieval pipeline.  The pipeline's
implementation (FastAPI backend) is not part of the frontend sources, so
those definitions are modelled from the specification, as marked in their
doc comments.
-/

/-- Message role in the chat transcript (`role: 'user' | 'bot'` in chat.jsx). -/
inductive Role where
  | user
  | bot
deriving DecidableEq

/-- A chat message (`{role, text}`; the `ts: Date.now()` timestamp is wall-clock
time and is not modelled). -/
structure Msg where
  role : Role
  text : String
deriving DecidableEq

/-- A JSON value returned by the backend, as far as the handler inspects it:
`typeof answer === "string"` distinguishes a string from anything else, and a
non-string is rendered with `JSON.stringify(answer, null, 2)`; we carry the
rendered text. -/
inductive JSValue where
  | jstr (s : String)
  | jother (rendered : String)
deriving DecidableEq

/-- The text the handler displays for a backend answer
(chat.jsx line 93: `typeof answer === "string" ? answer : JSON.stringify(...)`). -/
def JSValue.render : JSValue → String
  | .jstr s => s
  | .jother r => r

/-- Outcome of the `fetch` to `/query-rag`: an ok JSON response carrying the
answer, a non-ok HTTP response (status and body text), or a network error. -/
inductive QueryOutcome where
  | ok (answer : JSValue)
  | httpErr (status : Nat) (body : String)
  | netErr (message : String)
deriving DecidableEq

/-- Whether the outcome takes the `catch` path in `handleSendQuestion`. -/
def QueryOutcome.isFailure : QueryOutcome → Bool
  | .ok _ => false
  | .httpErr _ _ => true
  | .netErr _ => true

/-- JS `String.prototype.trim`: drop leading and trailing whitespace
characters.  Modelled on the character list of the string (ASCII whitespace;
the exotic Unicode space classes JS also trims do not occur in the model). -/
def jsTrim (s : String) : String :=
  String.mk (((s.data.dropWhile Char.isWhitespace).reverse.dropWhile
      Char.isWhitespace).reverse)

/-- The component state of the `Chat` page that `handleSendQuestion` reads and
writes: `question`, `topK`, `namespace` (shared with the build form), the
message list and the loading flag. -/
structure ChatState where
  question : String
  topK : Nat
  nspace : String
  messages : List Msg
  loadingQuery : Bool
deriving DecidableEq

/-- Initial `useState` values of the `Chat` component:
`question = ""`, `topK = 6`, `namespace = ""`, `messages = []`,
`loadingQuery = false`. -/
def initialChatState : ChatState :=
  { question := "", topK := 6, nspace := "", messages := [], loadingQuery := false }

/-- The JSON body `handleSendQuestion` posts to `/query-rag`. -/
structure QueryPayload where
  question : String
  top_k : Nat
  nspace : String
deriving DecidableEq

/-- `handleSendQuestion` (chat.jsx lines 61-104) as a pure function of the
component state and the backend outcome.  Returns the final component state
(after the `finally` block) and the payload sent, or `none` when the handler
returned early without a network request.  Mirrors the source:
trim the question and bail out if falsy (empty); append the user message and
clear the input; send `{question, top_k: 43, namespace: namespace || ""}`;
on ok append a bot message with the rendered answer, on a non-ok response
throw `Query failed: ${status} ${txt}` and on any caught error append
`Error: ${err.message}`; `finally` clears the loading flag. -/
def handleSendQuestion (st : ChatState) (outcome : QueryOutcome) :
    ChatState × Option QueryPayload :=
  let q := jsTrim st.question
  if q = "" then (st, none)
  else
    let userMsg : Msg := { role := .user, text := q }
    let payload : QueryPayload :=
      { question := q, top_k := 43, nspace := if st.nspace = "" then "" else st.nspace }
    let botMsg : Msg :=
      match outcome with
      | .ok answer => { role := .bot, text := answer.render }
      | .httpErr status body =>
          { role := .bot, text := "Error: " ++ ("Query failed: " ++ toString status ++ " " ++ body) }
      | .netErr message => { role := .bot, text := "Error: " ++ message }
    ({ st with question := "",
                messages := st.messages ++ [userMsg, botMsg],
                loadingQuery := false },
     some payload)

/-- A JavaScript number as far as the build-index handler inspects it:
`NaN`, `±Infinity`, or a finite value (we use `Rat`; JS `-0` is identified
with `0`, both being falsy). -/
inductive JSNum where
  | nan
  | posInf
  | negInf
  | finite (q : Rat)
deriving DecidableEq

/-- JS truthiness of a number: `NaN` and `±0` are falsy, everything else
(including `±Infinity`) is truthy. -/
def JSNum.truthy : JSNum → Bool
  | .nan => false
  | .posInf => true
  | .negInf => true
  | .finite q => decide (q ≠ 0)

/-- Whether the number is finite and nonzero (the condition named by the
claim about `chunk_per_n_rows`). -/
def JSNum.isNonzeroFinite : JSNum → Bool
  | .finite q => decide (q ≠ 0)
  | _ => false

/-- The JS `||` operator restricted to numbers: `a || b` evaluates to `a`
when `a` is truthy, else `b`. -/
def jsOr (a b : JSNum) : JSNum := if a.truthy then a else b

/-- The JSON body `handleBuildIndex` posts to `/build-index`. -/
structure BuildPayload where
  csv_path : String
  chunk_per_n_rows : JSNum
  force_recreate : Bool
  nspace : String
deriving DecidableEq

/-- The payload construction of `handleBuildIndex` (chat.jsx lines 34-39),
with `chunkPerNum` standing for `Number(chunkPer)`:
`{csv_path, chunk_per_n_rows: Number(chunkPer) || 1,
  force_recreate: Boolean(forceRecreate), namespace: namespace || ""}`. -/
def handleBuildIndex (csvPath : String) (chunkPerNum : JSNum)
    (forceRecreate : Bool) (ns : String) : BuildPayload :=
  { csv_path := csvPath,
    chunk_per_n_rows := jsOr chunkPerNum (.finite 1),
    force_recreate := forceRecreate,
    nspace := if ns = "" then "" else ns }

/-- C1 fails as stated: at the initial component state (where `topK = 6`)
with question `"hi"`, the payload sent by `handleSendQuestion` carries
`top_k = 43`, not the component's `topK` state. -/
theorem handleSendQuestion_topK_counterexample :
    ¬ (∀ (st : ChatState) (o : QueryOutcome) (pl : QueryPayload),
        (handleSendQuestion st o).2 = some pl → pl.top_k = st.topK) := by
  intro h
  have h6 := h { initialChatState with question := "hi" } (.netErr "x")
      { question := "hi", top_k := 43, nspace := "" } (by decide)
  simp [initialChatState] at h6

/-- C1 (amended): every payload sent by `handleSendQuestion` carries the
hard-coded constant `top_k = 43`; the `topK` state (initialised to 6, with
no UI control updating it) is not consulted. -/
theorem handleSendQuestion_topK_constant (st : ChatState) (o : QueryOutcome)
    (pl : QueryPayload) (h : (handleSendQuestion st o).2 = some pl) :
    pl.top_k = 43 := by
  by_cases hq : jsTrim st.question = ""
  · simp [handleSendQuestion, hq] at h
  · simp [handleSendQuestion, hq] at h
    rw [← h]

/-- Witness for the amended C1 at a concrete submission. -/
theorem handleSendQuestion_topK_constant_witness :
    ({ question := "hi", top_k := 43, nspace := "" } : QueryPayload).top_k = 43 :=
  handleSendQuestion_topK_constant { initialChatState with question := "hi" }
    (.netErr "x") _ (by decide)

/-- C8: a submission whose trimmed question is empty (empty or
whitespace-only input) makes no network request and leaves the whole
component state unchanged. -/
theorem handleSendQuestion_empty_noop (st : ChatState) (o : QueryOutcome)
    (h : jsTrim st.question = "") : handleSendQuestion st o = (st, none) := by
  simp [handleSendQuestion, h]

/-- Witness for C8 at a whitespace-only question. -/
theorem handleSendQuestion_empty_noop_witness :
    handleSendQuestion { initialChatState with question := "   " } (.netErr "x")
      = ({ initialChatState with question := "   " }, none) :=
  handleSendQuestion_empty_noop { initialChatState with question := "   " }
    (.netErr "x") (by decide)

/-- C9: a non-empty submission appends exactly two messages — the user
message with the trimmed question, then one bot message — for every
outcome; on a failure outcome the bot text is `"Error: "` followed by the
error message. -/
theorem handleSendQuestion_two_messages (st : ChatState) (o : QueryOutcome)
    (h : jsTrim st.question ≠ "") :
    ∃ botText,
      (handleSendQuestion st o).1.messages
        = st.messages ++ [{ role := .user, text := jsTrim st.question },
                          { role := .bot, text := botText }]
      ∧ (o.isFailure = true → ∃ rest, botText = "Error: " ++ rest) := by
  cases o with
  | ok answer =>
      exact ⟨answer.render, by simp [handleSendQuestion, h], by simp [QueryOutcome.isFailure]⟩
  | httpErr status body =>
      exact ⟨"Error: " ++ ("Query failed: " ++ toString status ++ " " ++ body),
        by simp [handleSendQuestion, h], fun _ => ⟨_, rfl⟩⟩
  | netErr message =>
      exact ⟨"Error: " ++ message, by simp [handleSendQuestion, h], fun _ => ⟨_, rfl⟩⟩

/-- Witness for C9 at a concrete failed submission. -/
theorem handleSendQuestion_two_messages_witness :
    ∃ botText,
      (handleSendQuestion { initialChatState with question := "hi" }
          (.httpErr 500 "boom")).1.messages
        = ({ initialChatState with question := "hi" } : ChatState).messages
            ++ [{ role := .user,
                  text := jsTrim ({ initialChatState with question := "hi" } : ChatState).question },
                { role := .bot, text := botText }]
      ∧ ((QueryOutcome.httpErr 500 "boom").isFailure = true
          → ∃ rest, botText = "Error: " ++ rest) :=
  handleSendQuestion_two_messages { initialChatState with question := "hi" }
    (.httpErr 500 "boom") (by decide)

/-- C10 fails as stated: `Number(chunkPer) || 1` is characterised by JS
truthiness, not by being a nonzero *finite* number.  At an input converting
to `+Infinity` (e.g. the text `"1e999"`), the claim predicts the field 1,
but the code sends `Infinity`. -/
theorem handleBuildIndex_chunk_counterexample :
    ¬ (∀ n : JSNum,
        (handleBuildIndex "/mnt/data/dgms_accidents.csv" n false "").chunk_per_n_rows
          = if n.isNonzeroFinite then n else JSNum.finite 1) := by
  intro h
  have hinf := h JSNum.posInf
  simp [handleBuildIndex, jsOr, JSNum.truthy, JSNum.isNonzeroFinite] at hinf

/-- C10 (amended): `chunk_per_n_rows` equals `Number(chunkPer)` whenever
that value is truthy — nonzero and not NaN, which includes the infinite
values — and 1 when it is NaN or zero (covering empty, non-numeric and zero
input); in particular the field is never 0 and never NaN. -/
theorem handleBuildIndex_chunk_field (p : String) (n : JSNum) (fr : Bool)
    (ns : String) :
    ((n.isNonzeroFinite = true ∨ n = JSNum.posInf ∨ n = JSNum.negInf) →
        (handleBuildIndex p n fr ns).chunk_per_n_rows = n)
    ∧ ((n = JSNum.nan ∨ n = JSNum.finite 0) →
        (handleBuildIndex p n fr ns).chunk_per_n_rows = JSNum.finite 1)
    ∧ (handleBuildIndex p n fr ns).chunk_per_n_rows ≠ JSNum.finite 0
    ∧ (handleBuildIndex p n fr ns).chunk_per_n_rows ≠ JSNum.nan := by
  cases n with
  | nan => simp [handleBuildIndex, jsOr, JSNum.truthy, JSNum.isNonzeroFinite]
  | posInf => simp [handleBuildIndex, jsOr, JSNum.truthy, JSNum.isNonzeroFinite]
  | negInf => simp [handleBuildIndex, jsOr, JSNum.truthy, JSNum.isNonzeroFinite]
  | finite q =>
      by_cases hq : q = 0
      · simp [handleBuildIndex, jsOr, JSNum.truthy, JSNum.isNonzeroFinite, hq]
      · simp [handleBuildIndex, jsOr, JSNum.truthy, JSNum.isNonzeroFinite, hq]

/-- Witness for the amended C10 at concrete inputs. -/
theorem handleBuildIndex_chunk_field_witness :
    (handleBuildIndex "a" (JSNum.finite 5) false "").chunk_per_n_rows = JSNum.finite 5
    ∧ (handleBuildIndex "a" JSNum.nan false "").chunk_per_n_rows = JSNum.finite 1 :=
  ⟨(handleBuildIndex_chunk_field "a" (JSNum.finite 5) false "").1 (Or.inl (by decide)),
   (handleBuildIndex_chunk_field "a" JSNum.nan false "").2.1 (Or.inl rfl)⟩

/-- Modelled from the spec: the Chunker (§4.4) lives in the backend, which is
not among the repository's source files here.  Contract followed:
`chunk(Sequence<AccidentRecord>, size N) -> Sequence<Chunk>` groups records
strictly by record count, `N` at a time, and a trailing partial group
smaller than `N` is still emitted as its own chunk. -/
def chunkRecords {α : Type} (N : Nat) : List α → List (List α)
  | [] => []
  | x :: xs =>
      if N = 0 then []
      else (x :: xs).take N :: chunkRecords N ((x :: xs).drop N)
termination_by l => l.length
decreasing_by
  simp only [List.length_drop]
  simp only [List.length_cons]
  omega

theorem chunkRecords_nil {α : Type} (N : Nat) :
    chunkRecords N ([] : List α) = [] := by
  simp [chunkRecords]

theorem chunkRecords_cons {α : Type} {N : Nat} {l : List α}
    (hN : N ≠ 0) (hl : l ≠ []) :
    chunkRecords N l = l.take N :: chunkRecords N (l.drop N) := by
  cases l with
  | nil => exact absurd rfl hl
  | cons x xs => rw [chunkRecords, if_neg hN]

theorem chunkRecords_join_aux {α : Type} (N : Nat) (hN : 0 < N) :
    ∀ (n : Nat) (l : List α), l.length ≤ n → (chunkRecords N l).flatten = l := by
  intro n
  induction n with
  | zero =>
      intro l h
      have hl : l = [] := List.eq_nil_of_length_eq_zero (Nat.le_zero.mp h)
      subst hl
      simp [chunkRecords_nil]
  | succ n ih =>
      intro l h
      by_cases hl : l = []
      · subst hl
        simp [chunkRecords_nil]
      · have hm : 0 < l.length := List.length_pos.mpr hl
        have hlen : (l.drop N).length ≤ n := by
          simp only [List.length_drop]
          omega
        rw [chunkRecords_cons (Nat.pos_iff_ne_zero.mp hN) hl, List.flatten_cons,
          ih (l.drop N) hlen, List.take_append_drop]

theorem chunkRecords_count_aux {α : Type} (N : Nat) (hN : 0 < N) :
    ∀ (n : Nat) (l : List α), l.length ≤ n →
      (chunkRecords N l).length = (l.length + N - 1) / N := by
  intro n
  induction n with
  | zero =>
      intro l h
      have hl : l = [] := List.eq_nil_of_length_eq_zero (Nat.le_zero.mp h)
      subst hl
      rw [chunkRecords_nil]
      simp [Nat.div_eq_of_lt (show N - 1 < N by omega)]
  | succ n ih =>
      intro l h
      by_cases hl : l = []
      · subst hl
        rw [chunkRecords_nil]
        simp [Nat.div_eq_of_lt (show N - 1 < N by omega)]
      · have hm : 0 < l.length := List.length_pos.mpr hl
        have hrec : (chunkRecords N (l.drop N)).length
            = ((l.length - N) + N - 1) / N := by
          rw [ih (l.drop N) (by simp only [List.length_drop]; omega)]
          simp [List.length_drop]
        rw [chunkRecords_cons (Nat.pos_iff_ne_zero.mp hN) hl]
        simp only [List.length_cons, hrec]
        rw [show l.length + N - 1 = (l.length - 1) + N by omega,
          Nat.add_div_right _ hN]
        by_cases hmN : l.length ≤ N
        · rw [show l.length - N = 0 by omega]
          rw [Nat.div_eq_of_lt (show l.length - 1 < N by omega)]
          rw [Nat.div_eq_of_lt (show 0 + N - 1 < N by omega)]
        · rw [show l.length - N + N - 1 = l.length - 1 by omega]

theorem chunkRecords_sizes_aux {α : Type} (N : Nat) (hN : 0 < N) :
    ∀ (n : Nat) (l : List α), l.length ≤ n →
      ∀ c ∈ chunkRecords N l, c.length ≤ N ∧ c ≠ [] := by
  intro n
  induction n with
  | zero =>
      intro l h
      have hl : l = [] := List.eq_nil_of_length_eq_zero (Nat.le_zero.mp h)
      subst hl
      simp [chunkRecords_nil]
  | succ n ih =>
      intro l h
      by_cases hl : l = []
      · subst hl
        simp [chunkRecords_nil]
      · rw [chunkRecords_cons (Nat.pos_iff_ne_zero.mp hN) hl]
        intro c hc
        have hm : 0 < l.length := List.length_pos.mpr hl
        rcases List.mem_cons.mp hc with hc1 | hc2
        · subst hc1
          refine ⟨by simp [List.length_take], ?_⟩
          apply List.ne_nil_of_length_pos
          simp only [List.length_take]
          omega
        · exact ih (l.drop N) (by simp only [List.length_drop]; omega) c hc2

/-- C2: for every record sequence of length `L` and chunk size `N > 0`,
chunking yields exactly `⌈L/N⌉` chunks, each chunk holds at most `N` records
and is nonempty (so a trailing partial group is its own chunk and no record
is split), and concatenating the chunks in order reconstructs the input. -/
theorem chunk_boundary_law {α : Type} (N : Nat) (hN : 0 < N) (l : List α) :
    (chunkRecords N l).length = (l.length + N - 1) / N
    ∧ (∀ c ∈ chunkRecords N l, c.length ≤ N ∧ c ≠ [])
    ∧ (chunkRecords N l).flatten = l :=
  ⟨chunkRecords_count_aux N hN l.length l le_rfl,
   chunkRecords_sizes_aux N hN l.length l le_rfl,
   chunkRecords_join_aux N hN l.length l le_rfl⟩

/-- Witness for C2: ten records with chunk size 4 give `⌈10/4⌉ = 3` chunks. -/
theorem chunk_boundary_law_witness :
    (chunkRecords 4 ([0, 1, 2, 3, 4, 5, 6, 7, 8, 9] : List Nat)).length
        = (([0, 1, 2, 3, 4, 5, 6, 7, 8, 9] : List Nat).length + 4 - 1) / 4
    ∧ (∀ c ∈ chunkRecords 4 ([0, 1, 2, 3, 4, 5, 6, 7, 8, 9] : List Nat),
        c.length ≤ 4 ∧ c ≠ [])
    ∧ (chunkRecords 4 ([0, 1, 2, 3, 4, 5, 6, 7, 8, 9] : List Nat)).flatten
        = [0, 1, 2, 3, 4, 5, 6, 7, 8, 9] :=
  chunk_boundary_law 4 (by decide) [0, 1, 2, 3, 4, 5, 6, 7, 8, 9]

/-- Chunk identifiers are strings (stable ids derived from provenance). -/
abbrev ChunkId := String

/-- Embedding vectors, modelled with integer components (the similarity
ranking only needs an ordered score, not floating-point rounding). -/
abbrev Vec := List Int

/-- Modelled from the spec: the Vector Index Manager (§4.6) is backend code
absent from the sources here.  One namespace's storage is an association
list from chunk identifier to vector; `upsertEntry` overwrites the entry
with the same key and appends a fresh key at the end (idempotent by chunk
identifier, never duplicating). -/
def upsertEntry {β : Type} (s : List (String × β)) (k : String) (v : β) :
    List (String × β) :=
  match s with
  | [] => [(k, v)]
  | (k', v') :: rest =>
      if k' = k then (k, v) :: rest else (k', v') :: upsertEntry rest k v

/-- Key lookup in an association list (first occurrence). -/
def lookupEntry {β : Type} (k : String) : List (String × β) → Option β
  | [] => none
  | (k', v') :: rest => if k' = k then some v' else lookupEntry k rest

/-- Batched upsert: entries are applied left to right. -/
def upsertBatch {β : Type} (s : List (String × β)) (es : List (String × β)) :
    List (String × β) :=
  es.foldl (fun t e => upsertEntry t e.1 e.2) s

/-- The keys of an association list, in storage order. -/
def entryKeys {β : Type} (s : List (String × β)) : List String :=
  s.map Prod.fst

theorem entryKeys_nil {β : Type} : entryKeys ([] : List (String × β)) = [] := rfl

theorem entryKeys_cons {β : Type} (e : String × β) (s : List (String × β)) :
    entryKeys (e :: s) = e.1 :: entryKeys s := rfl

theorem lookupEntry_upsertEntry {β : Type} (s : List (String × β))
    (k k' : String) (v : β) :
    lookupEntry k' (upsertEntry s k v)
      = if k' = k then some v else lookupEntry k' s := by
  induction s with
  | nil =>
      by_cases h : k' = k
      · subst h
        simp [upsertEntry, lookupEntry]
      · simp [upsertEntry, lookupEntry, h, Ne.symm h]
  | cons e rest ih =>
      obtain ⟨k1, v1⟩ := e
      by_cases h1 : k1 = k
      · subst h1
        by_cases h2 : k' = k1
        · subst h2
          simp [upsertEntry, lookupEntry]
        · simp [upsertEntry, lookupEntry, h2, Ne.symm h2]
      · by_cases h2 : k1 = k'
        · subst h2
          simp [upsertEntry, lookupEntry, h1, Ne.symm h1]
        · simp [upsertEntry, lookupEntry, h1, h2, Ne.symm h2, ih]

theorem lookupEntry_eq_none {β : Type} (s : List (String × β)) (k : String)
    (h : k ∉ entryKeys s) : lookupEntry k s = none := by
  induction s with
  | nil => rfl
  | cons e rest ih =>
      rw [entryKeys_cons, List.mem_cons] at h
      push_neg at h
      simp only [lookupEntry]
      rw [if_neg (Ne.symm h.1), ih h.2]

theorem entryKeys_upsertEntry_mem {β : Type} (s : List (String × β))
    (k : String) (v : β) (h : k ∈ entryKeys s) :
    entryKeys (upsertEntry s k v) = entryKeys s := by
  induction s with
  | nil => simp [entryKeys_nil] at h
  | cons e rest ih =>
      obtain ⟨k1, v1⟩ := e
      by_cases h1 : k1 = k
      · subst h1
        simp [upsertEntry, entryKeys_cons]
      · rw [entryKeys_cons, List.mem_cons] at h
        rcases h with h | h
        · exact absurd h.symm h1
        · show entryKeys (if k1 = k then (k, v) :: rest
            else (k1, v1) :: upsertEntry rest k v) = _
          rw [if_neg h1, entryKeys_cons, entryKeys_cons, ih h]

theorem entryKeys_upsertEntry_not_mem {β : Type} (s : List (String × β))
    (k : String) (v : β) (h : k ∉ entryKeys s) :
    entryKeys (upsertEntry s k v) = entryKeys s ++ [k] := by
  induction s with
  | nil => simp [upsertEntry, entryKeys_cons, entryKeys_nil]
  | cons e rest ih =>
      obtain ⟨k1, v1⟩ := e
      rw [entryKeys_cons, List.mem_cons] at h
      push_neg at h
      show entryKeys (if k1 = k then (k, v) :: rest
        else (k1, v1) :: upsertEntry rest k v) = _
      rw [if_neg (Ne.symm h.1), entryKeys_cons, entryKeys_cons, ih h.2,
        List.cons_append]

theorem mem_entryKeys_upsertEntry {β : Type} (s : List (String × β))
    (k k' : String) (v : β) :
    k' ∈ entryKeys (upsertEntry s k v) ↔ k' ∈ entryKeys s ∨ k' = k := by
  by_cases h : k ∈ entryKeys s
  · rw [entryKeys_upsertEntry_mem s k v h]
    constructor
    · exact Or.inl
    · rintro (hm | rfl)
      · exact hm
      · exact h
  · rw [entryKeys_upsertEntry_not_mem s k v h]
    simp

theorem nodup_entryKeys_upsertEntry {β : Type} (s : List (String × β))
    (k : String) (v : β) (h : (entryKeys s).Nodup) :
    (entryKeys (upsertEntry s k v)).Nodup := by
  by_cases hm : k ∈ entryKeys s
  · rw [entryKeys_upsertEntry_mem s k v hm]
    exact h
  · rw [entryKeys_upsertEntry_not_mem s k v hm]
    simp [List.nodup_append, h, hm]

/-- The last value written for key `k` in a batch, if any. -/
def lastWrite {β : Type} (k : String) : List (String × β) → Option β
  | [] => none
  | e :: rest =>
      match lastWrite k rest with
      | some v => some v
      | none => if e.1 = k then some e.2 else none

theorem lookupEntry_upsertBatch {β : Type} (es : List (String × β)) :
    ∀ (s : List (String × β)) (k : String),
      lookupEntry k (upsertBatch s es)
        = (lastWrite k es).elim (lookupEntry k s) some := by
  induction es with
  | nil => intro s k; rfl
  | cons e rest ih =>
      intro s k
      show lookupEntry k (upsertBatch (upsertEntry s e.1 e.2) rest) = _
      rw [ih (upsertEntry s e.1 e.2) k]
      cases hw : lastWrite k rest with
      | some v => simp [lastWrite, hw]
      | none =>
          simp only [lastWrite, hw, Option.elim]
          rw [lookupEntry_upsertEntry]
          by_cases h : k = e.1
          · subst h
            simp
          · simp [h, Ne.symm h]

theorem mem_entryKeys_upsertBatch_left {β : Type} (es : List (String × β)) :
    ∀ (s : List (String × β)) (k : String),
      k ∈ entryKeys s → k ∈ entryKeys (upsertBatch s es) := by
  induction es with
  | nil => intro s k h; exact h
  | cons e rest ih =>
      intro s k h
      exact ih (upsertEntry s e.1 e.2) k
        ((mem_entryKeys_upsertEntry s e.1 k e.2).mpr (Or.inl h))

theorem mem_entryKeys_upsertBatch_right {β : Type} (es : List (String × β)) :
    ∀ (s : List (String × β)) (k : String),
      k ∈ entryKeys es → k ∈ entryKeys (upsertBatch s es) := by
  induction es with
  | nil => intro s k h; simp [entryKeys_nil] at h
  | cons e rest ih =>
      intro s k h
      rw [entryKeys_cons, List.mem_cons] at h
      rcases h with h | h
      · rw [h]
        exact mem_entryKeys_upsertBatch_left rest (upsertEntry s e.1 e.2) e.1
          ((mem_entryKeys_upsertEntry s e.1 e.1 e.2).mpr (Or.inr rfl))
      · exact ih (upsertEntry s e.1 e.2) k h

theorem entryKeys_upsertBatch_stable {β : Type} (es : List (String × β)) :
    ∀ (s : List (String × β)),
      (∀ k, k ∈ entryKeys es → k ∈ entryKeys s) →
      entryKeys (upsertBatch s es) = entryKeys s := by
  induction es with
  | nil => intro s _; rfl
  | cons e rest ih =>
      intro s h
      have he : e.1 ∈ entryKeys s := h e.1 (by rw [entryKeys_cons]; exact List.mem_cons_self _ _)
      have hkeys : entryKeys (upsertEntry s e.1 e.2) = entryKeys s :=
        entryKeys_upsertEntry_mem s e.1 e.2 he
      show entryKeys (upsertBatch (upsertEntry s e.1 e.2) rest) = entryKeys s
      rw [ih (upsertEntry s e.1 e.2) ?_, hkeys]
      intro k hk
      rw [hkeys]
      exact h k (by rw [entryKeys_cons]; exact List.mem_cons_of_mem _ hk)

theorem nodup_entryKeys_upsertBatch {β : Type} (es : List (String × β)) :
    ∀ (s : List (String × β)), (entryKeys s).Nodup →
      (entryKeys (upsertBatch s es)).Nodup := by
  induction es with
  | nil => intro s h; exact h
  | cons e rest ih =>
      intro s h
      exact ih (upsertEntry s e.1 e.2) (nodup_entryKeys_upsertEntry s e.1 e.2 h)

theorem assoc_ext {β : Type} :
    ∀ (s t : List (String × β)), (entryKeys s).Nodup →
      entryKeys s = entryKeys t →
      (∀ k, lookupEntry k s = lookupEntry k t) → s = t := by
  intro s
  induction s with
  | nil =>
      intro t _ hkeys _
      cases t with
      | nil => rfl
      | cons e trest => simp [entryKeys_nil, entryKeys_cons] at hkeys
  | cons e rest ih =>
      intro t hnd hkeys hlook
      obtain ⟨k, v⟩ := e
      cases t with
      | nil => simp [entryKeys_nil, entryKeys_cons] at hkeys
      | cons e2 trest =>
          obtain ⟨k2, w⟩ := e2
          rw [entryKeys_cons, entryKeys_cons] at hkeys
          obtain ⟨hk2, htails⟩ := List.cons.injEq _ _ _ _ ▸ hkeys
          simp only at hk2 htails
          subst hk2
          have hvw : v = w := by
            have := hlook k
            simp [lookupEntry] at this
            exact this
          subst hvw
          rw [entryKeys_cons] at hnd
          have hknotin : k ∉ entryKeys rest := (List.nodup_cons.mp hnd).1
          have hndrest : (entryKeys rest).Nodup := (List.nodup_cons.mp hnd).2
          have hknotin2 : k ∉ entryKeys trest := htails ▸ hknotin
          have htail : ∀ k', lookupEntry k' rest = lookupEntry k' trest := by
            intro k'
            by_cases hk' : k' = k
            · subst hk'
              rw [lookupEntry_eq_none rest k' hknotin,
                lookupEntry_eq_none trest k' hknotin2]
            · have := hlook k'
              simp only [lookupEntry] at this
              rw [if_neg (Ne.symm hk'), if_neg (Ne.symm hk')] at this
              exact this
          rw [ih trest hndrest htails htail]

/-- Re-applying the same upsert batch leaves the index unchanged: the
second pass overwrites every entry with the value it already holds and
introduces no new keys. -/
theorem upsertBatch_idem {β : Type} (s es : List (String × β))
    (h : (entryKeys s).Nodup) :
    upsertBatch (upsertBatch s es) es = upsertBatch s es := by
  apply assoc_ext
  · exact nodup_entryKeys_upsertBatch es (upsertBatch s es)
      (nodup_entryKeys_upsertBatch es s h)
  · exact entryKeys_upsertBatch_stable es (upsertBatch s es)
      (fun k hk => mem_entryKeys_upsertBatch_right es s k hk)
  · intro k
    rw [lookupEntry_upsertBatch, lookupEntry_upsertBatch]
    cases hw : lastWrite k es <;> simp [hw]

/-- Modelled from the spec: a SourceDocument (§3) as ingestion sees it — a
version fingerprint and the normalized records rendered to text. -/
structure SourceDocument where
  version : String
  records : List String
deriving DecidableEq

/-- Modelled from the spec: the stable chunk identifier, derived
deterministically from provenance (document version and row range), so
re-chunking the same version yields identical identifiers. -/
def chunkId (version : String) (rowStart rowEnd : Nat) : ChunkId :=
  version ++ ":" ++ toString rowStart ++ "-" ++ toString rowEnd

/-- Modelled from the spec: chunk a document's records (§4.4), render each
chunk to a text blob, embed it, and pair the vector with the chunk's
provenance-derived identifier. -/
def chunkEntries (embed : String → Vec) (N : Nat) (d : SourceDocument) :
    List (ChunkId × Vec) :=
  (chunkRecords N d.records).enum.map
    (fun p => (chunkId d.version (p.1 * N) (p.1 * N + p.2.length - 1),
               embed (String.intercalate " " p.2)))

/-- Modelled from the spec: one ingestion of a document version into a
namespace's store — upsert all chunk entries (§4.6, §4.7). -/
def ingestDocument (embed : String → Vec) (N : Nat)
    (s : List (ChunkId × Vec)) (d : SourceDocument) : List (ChunkId × Vec) :=
  upsertBatch s (chunkEntries embed N d)

/-- C5: ingesting the same SourceDocument version twice is idempotent.  The
chunk identifiers are a pure function of the document (`chunkEntries`), so
both ingestions produce the identical identifier list, and the second
ingestion leaves the store exactly as the first left it, because upsert
overwrites rather than duplicates entries with the same chunk identifier. -/
theorem ingest_idempotent (embed : String → Vec) (N : Nat)
    (s : List (ChunkId × Vec)) (d : SourceDocument)
    (h : (entryKeys s).Nodup) :
    ingestDocument embed N (ingestDocument embed N s d) d
      = ingestDocument embed N s d :=
  upsertBatch_idem s (chunkEntries embed N d) h

/-- Witness for C5: a three-record document at chunk size 2, ingested twice
into an empty namespace. -/
theorem ingest_idempotent_witness :
    ingestDocument (fun t => [(t.length : Int)]) 2
        (ingestDocument (fun t => [(t.length : Int)]) 2 []
          { version := "v1", records := ["a", "bb", "ccc"] })
        { version := "v1", records := ["a", "bb", "ccc"] }
      = ingestDocument (fun t => [(t.length : Int)]) 2 []
          { version := "v1", records := ["a", "bb", "ccc"] } :=
  ingest_idempotent (fun t => [(t.length : Int)]) 2 []
    { version := "v1", records := ["a", "bb", "ccc"] } List.nodup_nil

/-- Inner-product similarity between a query vector and a stored vector
(the spec fixes one similarity metric at index-creation time; we model the
inner product). -/
def vdot (v w : Vec) : Int := (List.zipWith (fun a b => a * b) v w).sum

/-- Modelled from the spec: the retrieval ranking order on scored results —
descending similarity score, ties broken by lexicographic (String) order on
the chunk identifier (§4.6). -/
def rankLE (a b : ChunkId × Int) : Prop :=
  b.2 < a.2 ∨ (a.2 = b.2 ∧ a.1 ≤ b.1)

instance : DecidableRel rankLE := fun a b => by
  unfold rankLE
  infer_instance

instance : IsTrans (ChunkId × Int) rankLE := by
  constructor
  intro a b c hab hbc
  rcases hab with hab | ⟨hab1, hab2⟩
  · rcases hbc with hbc | ⟨hbc1, hbc2⟩
    · exact Or.inl (by omega)
    · exact Or.inl (by omega)
  · rcases hbc with hbc | ⟨hbc1, hbc2⟩
    · exact Or.inl (by omega)
    · exact Or.inr ⟨by omega, le_trans hab2 hbc2⟩

instance : IsTotal (ChunkId × Int) rankLE := by
  constructor
  intro a b
  rcases lt_trichotomy a.2 b.2 with h | h | h
  · exact Or.inr (Or.inl h)
  · rcases le_total a.1 b.1 with h1 | h1
    · exact Or.inl (Or.inr ⟨h, h1⟩)
    · exact Or.inr (Or.inr ⟨h.symm, h1⟩)
  · exact Or.inl (Or.inl h)

/-- Modelled from the spec: `query(namespace, queryVector, k)` over one
namespace's store — score every entry by similarity with the query vector,
sort by `rankLE` (descending score, lexicographic identifier as the tie
break), and return at most `k` results (§4.6). -/
def queryNs (s : List (ChunkId × Vec)) (v : Vec) (k : Nat) :
    List (ChunkId × Int) :=
  (List.insertionSort rankLE (s.map (fun e => (e.1, vdot v e.2)))).take k

/-- C6: the index query is deterministic — two calls with identical store,
vector, and `k` (no intervening upsert) return identical ordered results —
and the result list is ranked by descending similarity score with ties
broken by lexicographic chunk identifier, holds at most `k` entries, and
draws every result from the queried namespace's entries. -/
theorem query_deterministic_ranked (s s' : List (ChunkId × Vec))
    (v v' : Vec) (k k' : Nat) (hs : s = s') (hv : v = v') (hk : k = k') :
    queryNs s v k = queryNs s' v' k'
    ∧ List.Pairwise rankLE (queryNs s v k)
    ∧ (queryNs s v k).length ≤ k
    ∧ (∀ r ∈ queryNs s v k, ∃ e ∈ s, r = (e.1, vdot v e.2)) := by
  subst hs
  subst hv
  subst hk
  refine ⟨rfl, ?_, ?_, ?_⟩
  · exact List.Pairwise.sublist (List.take_sublist k _)
      (List.sorted_insertionSort rankLE _)
  · exact List.length_take_le k _
  · intro r hr
    have hr1 : r ∈ List.insertionSort rankLE
        (s.map (fun e => (e.1, vdot v e.2))) := List.take_subset k _ hr
    rw [List.mem_insertionSort] at hr1
    obtain ⟨e, he, heq⟩ := List.mem_map.mp hr1
    exact ⟨e, he, heq.symm⟩

/-- Witness for C6 at a concrete three-entry namespace with a score tie. -/
theorem query_deterministic_ranked_witness :
    queryNs [("b", [2]), ("a", [3]), ("c", [2])] [1] 2
        = queryNs [("b", [2]), ("a", [3]), ("c", [2])] [1] 2
    ∧ List.Pairwise rankLE (queryNs [("b", [2]), ("a", [3]), ("c", [2])] [1] 2)
    ∧ (queryNs [("b", [2]), ("a", [3]), ("c", [2])] [1] 2).length ≤ 2
    ∧ (∀ r ∈ queryNs [("b", [2]), ("a", [3]), ("c", [2])] [1] 2,
        ∃ e ∈ [("b", [2]), ("a", [3]), ("c", [2])], r = (e.1, vdot [1] e.2)) :=
  query_deterministic_ranked _ _ _ _ _ _ rfl rfl rfl

/-- Modelled from the spec: the embedding adapter's bounded retry loop
(§4.5).  The provider's behavior is an oracle from attempt index to either
the batch's vectors or a transient failure; the loop walks attempts until
one succeeds or the fuel (the fixed attempt limit) is exhausted, which
fails the whole batch with `EmbeddingError`. -/
def embedRetry (provider : Nat → Option (List Vec)) (attempt : Nat) :
    Nat → Except String (List Vec)
  | 0 => Except.error "EmbeddingError"
  | fuel + 1 =>
      match provider attempt with
      | some vs => Except.ok vs
      | none => embedRetry provider (attempt + 1) fuel

/-- Embedding with retries, starting at attempt 0 with `limit` attempts. -/
def embedWithRetry (provider : Nat → Option (List Vec)) (limit : Nat) :
    Except String (List Vec) :=
  embedRetry provider 0 limit

theorem embedRetry_all_fail (provider : Nat → Option (List Vec)) :
    ∀ (fuel attempt : Nat),
      (∀ i, attempt ≤ i → i < attempt + fuel → provider i = none) →
      embedRetry provider attempt fuel = Except.error "EmbeddingError" := by
  intro fuel
  induction fuel with
  | zero => intro attempt _; rfl
  | succ n ih =>
      intro attempt h
      have h0 : provider attempt = none := h attempt le_rfl (by omega)
      simp only [embedRetry, h0]
      exact ih (attempt + 1) (fun i h1 h2 => h i (by omega) (by omega))

/-- Modelled from the spec: the index state the orchestrator owns — the
single-writer active-namespace register and the per-namespace stores
(§3 IndexNamespace, §9 design note on the current-namespace register). -/
structure OrchState where
  activeNamespace : String
  namespaces : List (String × List (ChunkId × Vec))
deriving DecidableEq

/-- Modelled from the spec: the exposed `getIndexStatus()` record (§6),
restricted to the field the claims consult. -/
structure IndexStatus where
  activeNamespace : String
deriving DecidableEq

/-- `getIndexStatus() -> { activeNamespace, ... }`. -/
def getIndexStatus (st : OrchState) : IndexStatus :=
  { activeNamespace := st.activeNamespace }

/-- Modelled from the spec: one ingestion cycle of the Update Orchestrator
(§4.7): chunk the fetched document's records, embed them with the bounded
retry policy, and on success upsert the new namespace's entries and
activate it; on `EmbeddingError` the cycle aborts back to IDLE without
activating anything, leaving the previously active namespace serving. -/
def runCycle (st : OrchState) (newNs : String) (d : SourceDocument)
    (N : Nat) (provider : Nat → Option (List Vec)) (limit : Nat) :
    OrchState :=
  let chunks := chunkRecords N d.records
  match embedWithRetry provider limit with
  | .error _ => st
  | .ok vs =>
      let ids := chunks.enum.map
        (fun p => chunkId d.version (p.1 * N) (p.1 * N + p.2.length - 1))
      let entries := List.zip ids vs
      { activeNamespace := newNs,
        namespaces := upsertEntry st.namespaces newNs
          (upsertBatch ((lookupEntry newNs st.namespaces).getD []) entries) }

/-- C4: fail-closed ingestion — when the embedding provider fails every
attempt up to the retry limit (exhausted retries, `EmbeddingError`), the
cycle never activates the new namespace: `getIndexStatus().activeNamespace`
after the cycle equals its value before the cycle. -/
theorem fail_closed_ingestion (st : OrchState) (newNs : String)
    (d : SourceDocument) (N : Nat) (provider : Nat → Option (List Vec))
    (limit : Nat) (h : ∀ i, i < limit → provider i = none) :
    (getIndexStatus (runCycle st newNs d N provider limit)).activeNamespace
      = (getIndexStatus st).activeNamespace := by
  have he : embedWithRetry provider limit = Except.error "EmbeddingError" :=
    embedRetry_all_fail provider limit 0 (fun i _ h2 => h i (by omega))
  simp [runCycle, he]

/-- Witness for C4: a provider that always fails, with three attempts. -/
theorem fail_closed_ingestion_witness :
    (getIndexStatus (runCycle { activeNamespace := "v1", namespaces := [] }
        "v2" { version := "v2", records := ["r"] } 1 (fun _ => none) 3)).activeNamespace
      = (getIndexStatus { activeNamespace := "v1", namespaces := [] }).activeNamespace :=
  fail_closed_ingestion { activeNamespace := "v1", namespaces := [] } "v2"
    { version := "v2", records := ["r"] } 1 (fun _ => none) 3 (fun _ _ => rfl)

/-- Modelled from the spec: the write-path operations that can interleave
with a query — upserts into a namespace under construction, and the atomic
activation of a namespace (§4.6, §5). -/
inductive WriterOp where
  | upsertOp (ns : String) (entries : List (ChunkId × Vec))
  | activateOp (ns : String)
deriving DecidableEq

/-- One writer step on the index state: an upsert merges entries into the
named namespace's store; activation writes only the single-writer
active-namespace register. -/
def applyOp (st : OrchState) : WriterOp → OrchState
  | .upsertOp ns es =>
      { st with
        namespaces :=
          upsertEntry st.namespaces ns
            (upsertBatch ((lookupEntry ns st.namespaces).getD []) es) }
  | .activateOp ns => { st with activeNamespace := ns }

/-- Execute a sequence of writer steps. -/
def execOps (st : OrchState) (ops : List WriterOp) : OrchState :=
  ops.foldl applyOp st

theorem execOps_cons (st : OrchState) (op : WriterOp) (ops : List WriterOp) :
    execOps st (op :: ops) = execOps (applyOp st op) ops := rfl

/-- Modelled from the spec: a query that runs concurrently with the
writer.  It reads the active-namespace register once, at point `i` of the
writer's step sequence (the pin), and computes its top-k against that
namespace's store as of point `j ≥ i` (the completion) (§5: activation is
the single synchronization point; data within a namespace is immutable). -/
def queryConcurrent (st : OrchState) (ops : List WriterOp) (i j : Nat)
    (v : Vec) (k : Nat) : List (ChunkId × Int) :=
  queryNs ((lookupEntry (execOps st (ops.take i)).activeNamespace
      (execOps st (ops.take j)).namespaces).getD []) v k

theorem execOps_upserts_invariant (fresh : String) :
    ∀ (l : List WriterOp) (st : OrchState),
      (∀ op ∈ l, ∃ es, op = WriterOp.upsertOp fresh es) →
      (execOps st l).activeNamespace = st.activeNamespace
      ∧ ∀ ns, ns ≠ fresh →
          lookupEntry ns (execOps st l).namespaces
            = lookupEntry ns st.namespaces := by
  intro l
  induction l with
  | nil => intro st _; exact ⟨rfl, fun ns _ => rfl⟩
  | cons op rest ih =>
      intro st h
      obtain ⟨es, hop⟩ := h op (List.mem_cons_self _ _)
      subst hop
      have hstep := ih (applyOp st (.upsertOp fresh es))
        (fun op hm => h op (List.mem_cons_of_mem _ hm))
      rw [execOps_cons]
      refine ⟨?_, ?_⟩
      · rw [hstep.1]
        rfl
      · intro ns hns
        rw [hstep.2 ns hns]
        simp [applyOp, lookupEntry_upsertEntry, hns]

/-- C3: atomic visibility.  For a writer trace that builds a fresh
namespace by upserts and then activates it, a query pinned at any point
`i` and completed at any later point `j` returns either exactly the
results computed from the previously active namespace's original data, or
exactly the results computed from the fresh namespace's final data — never
a mix; and a reader pinned before the activation (mid-query) completes
against the old namespace's still-intact data even when it finishes after
the swap. -/
theorem atomic_visibility (st : OrchState) (fresh : String)
    (hf : fresh ≠ st.activeNamespace)
    (batches : List (List (ChunkId × Vec))) (v : Vec) (k : Nat) (i j : Nat)
    (hij : i ≤ j) (hj : j ≤ batches.length + 1) :
    (queryConcurrent st
        (batches.map (WriterOp.upsertOp fresh) ++ [WriterOp.activateOp fresh])
        i j v k
      = queryNs ((lookupEntry st.activeNamespace st.namespaces).getD []) v k
    ∨ queryConcurrent st
        (batches.map (WriterOp.upsertOp fresh) ++ [WriterOp.activateOp fresh])
        i j v k
      = queryNs ((lookupEntry fresh
          (execOps st (batches.map (WriterOp.upsertOp fresh)
            ++ [WriterOp.activateOp fresh])).namespaces).getD []) v k)
    ∧ (i ≤ batches.length →
        queryConcurrent st
          (batches.map (WriterOp.upsertOp fresh) ++ [WriterOp.activateOp fresh])
          i j v k
        = queryNs ((lookupEntry st.activeNamespace st.namespaces).getD []) v k) := by
  have htake : ∀ m, m ≤ batches.length →
      (batches.map (WriterOp.upsertOp fresh)
        ++ [WriterOp.activateOp fresh]).take m
      = (batches.take m).map (WriterOp.upsertOp fresh) := by
    intro m hm
    rw [List.take_append_of_le_length (by simpa using hm), List.map_take]
  have hmem : ∀ (bl : List (List (ChunkId × Vec))),
      ∀ op ∈ bl.map (WriterOp.upsertOp fresh),
        ∃ es, op = WriterOp.upsertOp fresh es := by
    intro bl op hm
    obtain ⟨es, _, heq⟩ := List.mem_map.mp hm
    exact ⟨es, heq.symm⟩
  have hfull : execOps st (batches.map (WriterOp.upsertOp fresh)
        ++ [WriterOp.activateOp fresh])
      = applyOp (execOps st (batches.map (WriterOp.upsertOp fresh)))
          (WriterOp.activateOp fresh) := by
    unfold execOps
    rw [List.foldl_append]
    rfl
  have hstoreAt : ∀ m, m ≤ batches.length + 1 → ∀ ns, ns ≠ fresh →
      lookupEntry ns (execOps st ((batches.map (WriterOp.upsertOp fresh)
          ++ [WriterOp.activateOp fresh]).take m)).namespaces
        = lookupEntry ns st.namespaces := by
    intro m hm ns hns
    by_cases hm' : m ≤ batches.length
    · rw [htake m hm']
      exact (execOps_upserts_invariant fresh _ st (hmem _)).2 ns hns
    · rw [List.take_of_length_le (by simp; omega)]
      rw [hfull]
      show lookupEntry ns
          (execOps st (batches.map (WriterOp.upsertOp fresh))).namespaces
        = lookupEntry ns st.namespaces
      exact (execOps_upserts_invariant fresh _ st (hmem _)).2 ns hns
  by_cases hi : i ≤ batches.length
  · have hmain : queryConcurrent st
        (batches.map (WriterOp.upsertOp fresh) ++ [WriterOp.activateOp fresh])
        i j v k
        = queryNs ((lookupEntry st.activeNamespace st.namespaces).getD []) v k := by
      unfold queryConcurrent
      rw [htake i hi,
        (execOps_upserts_invariant fresh _ st (hmem _)).1,
        hstoreAt j hj st.activeNamespace (Ne.symm hf)]
    exact ⟨Or.inl hmain, fun _ => hmain⟩
  · have hii : i = batches.length + 1 := by omega
    have hjj : j = batches.length + 1 := by omega
    have htakeall : ∀ m, m = batches.length + 1 →
        (batches.map (WriterOp.upsertOp fresh)
          ++ [WriterOp.activateOp fresh]).take m
        = batches.map (WriterOp.upsertOp fresh)
            ++ [WriterOp.activateOp fresh] := by
      intro m hm
      exact List.take_of_length_le (by simp; omega)
    have hmain : queryConcurrent st
        (batches.map (WriterOp.upsertOp fresh) ++ [WriterOp.activateOp fresh])
        i j v k
        = queryNs ((lookupEntry fresh
            (execOps st (batches.map (WriterOp.upsertOp fresh)
              ++ [WriterOp.activateOp fresh])).namespaces).getD []) v k := by
      unfold queryConcurrent
      rw [htakeall i hii, htakeall j hjj]
      rw [show (execOps st (batches.map (WriterOp.upsertOp fresh)
          ++ [WriterOp.activateOp fresh])).activeNamespace = fresh from by
        rw [hfull]; rfl]
    exact ⟨Or.inr hmain, fun hcon => (hi hcon).elim⟩

/-- Witness for C3: one upsert batch then activation; the reader pins
between the upsert and the activation (i = 1) and completes after the
activation (j = 2). -/
theorem atomic_visibility_witness :
    (queryConcurrent
        { activeNamespace := "v1", namespaces := [("v1", [("c1", [1])])] }
        (([[("d1", [2])]] : List (List (ChunkId × Vec))).map
            (WriterOp.upsertOp "v2") ++ [WriterOp.activateOp "v2"])
        1 2 [1] 1
      = queryNs ((lookupEntry "v1" [("v1", [("c1", [1])])]).getD []) [1] 1
    ∨ queryConcurrent
        { activeNamespace := "v1", namespaces := [("v1", [("c1", [1])])] }
        (([[("d1", [2])]] : List (List (ChunkId × Vec))).map
            (WriterOp.upsertOp "v2") ++ [WriterOp.activateOp "v2"])
        1 2 [1] 1
      = queryNs ((lookupEntry "v2"
          (execOps
            { activeNamespace := "v1", namespaces := [("v1", [("c1", [1])])] }
            (([[("d1", [2])]] : List (List (ChunkId × Vec))).map
                (WriterOp.upsertOp "v2")
              ++ [WriterOp.activateOp "v2"])).namespaces).getD []) [1] 1)
    ∧ (1 ≤ ([[("d1", [2])]] : List (List (ChunkId × Vec))).length →
        queryConcurrent
          { activeNamespace := "v1", namespaces := [("v1", [("c1", [1])])] }
          (([[("d1", [2])]] : List (List (ChunkId × Vec))).map
              (WriterOp.upsertOp "v2") ++ [WriterOp.activateOp "v2"])
          1 2 [1] 1
        = queryNs ((lookupEntry "v1" [("v1", [("c1", [1])])]).getD []) [1] 1) :=
  atomic_visibility
    { activeNamespace := "v1", namespaces := [("v1", [("c1", [1])])] }
    "v2" (by decide) [[("d1", [2])]] [1] 1 1 2 (by decide) (by decide)

/-- Modelled from the spec: the fixed deterministic answer the Answer
Synthesizer returns when retrieval found nothing (§4.9). -/
def noRelevantDataAnswer : String := "no relevant data found"

/-- Modelled from the spec: the synthesized answer plus the retrieval
evidence used (§3 AnswerResponse). -/
structure AnswerResponse where
  text : String
  evidence : List (String × Int)
deriving DecidableEq

/-- Keep highest-ranked chunks while they fit in the context budget;
lowest-ranked chunks are the first truncated (§4.9). -/
def takeWithinBudget (budget : Nat) : List String → List String
  | [] => []
  | c :: rest =>
      if c.length ≤ budget then c :: takeWithinBudget (budget - c.length) rest
      else []

/-- Bounded-length context built from the ranked chunk texts (§4.9). -/
def buildContext (budget : Nat) (chunks : List String) : String :=
  String.intercalate "\n" (takeWithinBudget budget chunks)

/-- Modelled from the spec: the Answer Synthesizer (§4.9).  `retrieved` is
the ranked RetrievalResult as (chunk text, score) pairs; `gen` is the
external generation capability.  The returned flag records whether the
generation capability was invoked. -/
def synthesize (gen : String → String → String) (budget : Nat)
    (question : String) (retrieved : List (String × Int)) :
    AnswerResponse × Bool :=
  if retrieved.isEmpty then
    ({ text := noRelevantDataAnswer, evidence := [] }, false)
  else
    ({ text := gen (buildContext budget (retrieved.map Prod.fst)) question,
       evidence := retrieved }, true)

/-- C7: on an empty RetrievalResult the synthesizer returns the fixed
"no relevant data found" answer and never invokes the generation
capability — the flag is false and the result does not depend on the
generation function or the context budget at all. -/
theorem synthesize_empty_no_generation
    (gen gen' : String → String → String) (budget budget' : Nat)
    (question : String) :
    (synthesize gen budget question []).1.text = noRelevantDataAnswer
    ∧ (synthesize gen budget question []).2 = false
    ∧ synthesize gen budget question [] = synthesize gen' budget' question [] :=
  ⟨rfl, rfl, rfl⟩
